import Mathlib

/-!
Shallow embedding of the retrieval engine of the CHRIST repository
(`src/retrieval/vector_store.py` and `src/retrieval/llm_integration.py`):
the fallback hash embedding, the in-memory vector store with its numpy
linear-scan search, the hybrid (semantic + keyword) retriever, and the
RAG orchestration (query / chat prompt assembly).

Python floats are modelled as rationals (ℚ).  The cosine-similarity
kernel of `_numpy_search` (lines 202-204, normalised dot products whose
values are irrational square-root quotients) is abstracted as a
parameter `sim`; every ranking/filtering/slicing step that consumes the
similarity values is modelled exactly, so theorems quantified over `sim`
cover the cosine instance.  `hashlib.sha256` is implemented in full
(FIPS 180-4) so the fallback embedding is a concrete executable
function.
-/

namespace Christ

/-! ### Python-list helpers -/

/-- Python slice `xs[-k:]`.  For `k = 0` Python evaluates `xs[-0:]` which is
`xs[0:]`, i.e. the whole list; otherwise the last `min k (length xs)`
elements. -/
def sliceLast (k : Nat) (xs : List α) : List α :=
  if k = 0 then xs else xs.drop (xs.length - k)

/-- Python slice `xs[:k]` (here `k` is a natural number). -/
def sliceFirst (k : Nat) (xs : List α) : List α := xs.take k

/-- Python `dict` assignment `d[key] = v`: overwrite in place when the key is
present (keeping its position, as CPython dicts do), else append. -/
def dictSet (d : List (String × α)) (key : String) (v : α) : List (String × α) :=
  if d.any (fun kv => kv.1 == key) then
    d.map (fun kv => if kv.1 == key then (key, v) else kv)
  else d ++ [(key, v)]

/-- Ascending argsort of a list of rationals: the model of `np.argsort`
with its default `kind` (an introsort).  The model is an insertion sort,
which agrees with numpy elementwise on arrays of fewer than 16 elements,
where the numpy introsort runs its stable insertion-sort base case; for
larger arrays numpy does not specify the relative order of ties, so any
conclusion that depends on tie order (claim C9) carries an explicit
size bound, while order-insensitive facts (membership, length,
permutation of the index range, sortedness by value) hold for numpy
unconditionally and are the only facts the other claims use. -/
def argsortQ (xs : List ℚ) : List Nat :=
  (List.range xs.length).insertionSort (fun i j => xs.getD i 0 ≤ xs.getD j 0)

/-! ### SHA-256 (hashlib.sha256), used by the fallback embedding -/

/-- Truncate to a 32-bit word. -/
def w32 (n : Nat) : Nat := n % 4294967296

/-- Right rotation of a 32-bit word. -/
def rotr32 (n x : Nat) : Nat := w32 ((x >>> n) ||| (x <<< (32 - n)))

def sigmaBigA (x : Nat) : Nat := (rotr32 2 x) ^^^ (rotr32 13 x) ^^^ (rotr32 22 x)

def sigmaBigB (x : Nat) : Nat := (rotr32 6 x) ^^^ (rotr32 11 x) ^^^ (rotr32 25 x)

def sigmaSmallA (x : Nat) : Nat := (rotr32 7 x) ^^^ (rotr32 18 x) ^^^ (x >>> 3)

def sigmaSmallB (x : Nat) : Nat := (rotr32 17 x) ^^^ (rotr32 19 x) ^^^ (x >>> 10)

def chFun (x y z : Nat) : Nat := (x &&& y) ^^^ ((x ^^^ 4294967295) &&& z)

def majFun (x y z : Nat) : Nat := (x &&& y) ^^^ (x &&& z) ^^^ (y &&& z)

def sha256K : List Nat :=
  [1116352408, 1899447441, 3049323471, 3921009573,
   961987163, 1508970993, 2453635748, 2870763221,
   3624381080, 310598401, 607225278, 1426881987,
   1925078388, 2162078206, 2614888103, 3248222580,
   3835390401, 4022224774, 264347078, 604807628,
   770255983, 1249150122, 1555081692, 1996064986,
   2554220882, 2821834349, 2952996808, 3210313671,
   3336571891, 3584528711, 113926993, 338241895,
   666307205, 773529912, 1294757372, 1396182291,
   1695183700, 1986661051, 2177026350, 2456956037,
   2730485921, 2820302411, 3259730800, 3345764771,
   3516065817, 3600352804, 4094571909, 275423344,
   430227734, 506948616, 659060556, 883997877,
   958139571, 1322822218, 1537002063, 1747873779,
   1955562222, 2024104815, 2227730452, 2361852424,
   2428436474, 2756734187, 3204031479, 3329325298]

/-- The eight working words of the SHA-256 state. -/
structure Hash8 where
  a : Nat
  b : Nat
  c : Nat
  d : Nat
  e : Nat
  f : Nat
  g : Nat
  h : Nat
deriving Repr, DecidableEq

def sha256Init : Hash8 :=
  ⟨1779033703, 3144134277, 1013904242, 2773480762,
   1359893119, 2600822924, 528734635, 1541459225⟩

/-- Pad a byte message per FIPS 180-4: append `0x80`, zeros to 56 mod 64,
then the bit length as 8 big-endian bytes. -/
def sha256PadBytes (msg : List Nat) : List Nat :=
  let len := msg.length
  let zeros := (64 - (len + 9) % 64) % 64
  let bitLen := len * 8
  msg ++ [128] ++ List.replicate zeros 0 ++
    [(bitLen >>> 56) &&& 255, (bitLen >>> 48) &&& 255, (bitLen >>> 40) &&& 255,
     (bitLen >>> 32) &&& 255, (bitLen >>> 24) &&& 255, (bitLen >>> 16) &&& 255,
     (bitLen >>> 8) &&& 255, bitLen &&& 255]

/-- Group bytes four at a time into big-endian 32-bit words. -/
def bytesToWords : List Nat → List Nat
  | b0 :: b1 :: b2 :: b3 :: rest =>
      (((b0 * 256 + b1) * 256 + b2) * 256 + b3) :: bytesToWords rest
  | _ => []

/-- Group a word list into blocks of 16 words (after padding the word count
is always a multiple of 16). -/
def wordsToBlocks : List Nat → List (List Nat)
  | w0 :: w1 :: w2 :: w3 :: w4 :: w5 :: w6 :: w7 ::
    w8 :: w9 :: w10 :: w11 :: w12 :: w13 :: w14 :: w15 :: rest =>
      [w0, w1, w2, w3, w4, w5, w6, w7, w8, w9, w10, w11, w12, w13, w14, w15] ::
        wordsToBlocks rest
  | _ => []

/-- Extend a 16-word block to the 64-word message schedule. -/
def extendW (ws : List Nat) : List Nat :=
  (List.range 48).foldl
    (fun acc _ =>
      let n := acc.length
      acc ++ [w32 (sigmaSmallB (acc.getD (n - 2) 0) + acc.getD (n - 7) 0 +
                   sigmaSmallA (acc.getD (n - 15) 0) + acc.getD (n - 16) 0)])
    ws

/-- One round of the SHA-256 compression loop. -/
def sha256Round (W : List Nat) (s : Hash8) (i : Nat) : Hash8 :=
  let t1 := w32 (s.h + sigmaBigB s.e + chFun s.e s.f s.g + sha256K.getD i 0 + W.getD i 0)
  let t2 := w32 (sigmaBigA s.a + majFun s.a s.b s.c)
  ⟨w32 (t1 + t2), s.a, s.b, s.c, w32 (s.d + t1), s.e, s.f, s.g⟩

/-- Compress one 16-word block into the running hash state. -/
def compressBlock (st : Hash8) (block : List Nat) : Hash8 :=
  let W := extendW block
  let r := (List.range 64).foldl (sha256Round W) st
  ⟨w32 (st.a + r.a), w32 (st.b + r.b), w32 (st.c + r.c), w32 (st.d + r.d),
   w32 (st.e + r.e), w32 (st.f + r.f), w32 (st.g + r.g), w32 (st.h + r.h)⟩

/-- Big-endian bytes of a 32-bit word. -/
def wordBytes (w : Nat) : List Nat :=
  [(w >>> 24) &&& 255, (w >>> 16) &&& 255, (w >>> 8) &&& 255, w &&& 255]

/-- UTF-8 encoding of one Unicode code point (Python `str.encode()`). -/
def utf8EncodeCodePoint (c : Nat) : List Nat :=
  if c < 0x80 then [c]
  else if c < 0x800 then
    [0xC0 ||| (c >>> 6), 0x80 ||| (c &&& 0x3F)]
  else if c < 0x10000 then
    [0xE0 ||| (c >>> 12), 0x80 ||| ((c >>> 6) &&& 0x3F), 0x80 ||| (c &&& 0x3F)]
  else
    [0xF0 ||| (c >>> 18), 0x80 ||| ((c >>> 12) &&& 0x3F),
     0x80 ||| ((c >>> 6) &&& 0x3F), 0x80 ||| (c &&& 0x3F)]

/-- `text.encode()`: the UTF-8 bytes of a string. -/
def stringBytes (s : String) : List Nat :=
  s.data.foldr (fun c acc => utf8EncodeCodePoint c.toNat ++ acc) []

/-- `hashlib.sha256(text.encode()).digest()` as a list of byte values. -/
def sha256Bytes (s : String) : List Nat :=
  let msg := stringBytes s
  let blocks := wordsToBlocks (bytesToWords (sha256PadBytes msg))
  let fin := blocks.foldl compressBlock sha256Init
  wordBytes fin.a ++ wordBytes fin.b ++ wordBytes fin.c ++ wordBytes fin.d ++
  wordBytes fin.e ++ wordBytes fin.f ++ wordBytes fin.g ++ wordBytes fin.h

theorem sha256Bytes_length (s : String) : (sha256Bytes s).length = 32 := by
  simp [sha256Bytes, wordBytes]

set_option maxRecDepth 10000 in
example : sha256Bytes "abc" =
    [0xba, 0x78, 0x16, 0xbf, 0x8f, 0x01, 0xcf, 0xea,
     0x41, 0x41, 0x40, 0xde, 0x5d, 0xae, 0x22, 0x23,
     0xb0, 0x03, 0x61, 0xa3, 0x96, 0x17, 0x7a, 0x9c,
     0xb4, 0x10, 0xff, 0x61, 0xf2, 0x00, 0x15, 0xad] := by decide

/-! ### Fallback embedding (`VectorStore._embed_texts`, no model available) -/

/-- `self.embedding_dimension = 384  # Default dimension` (no
sentence-transformers model available). -/
def embeddingDimension : Nat := 384

/-- The fallback embedding of one text: bytes of the SHA-256 digest, truncated to
the embedding dimension, scaled by `1/255`, zero-padded to the dimension. -/
def embedText (t : String) : List ℚ :=
  let bytes := (sha256Bytes t).take embeddingDimension
  let emb := bytes.map (fun b : Nat => (b : ℚ) / 255)
  if emb.length < embeddingDimension then
    emb ++ List.replicate (embeddingDimension - emb.length) 0
  else emb

/-- `VectorStore._embed_texts` under the fallback strategy. -/
def embedTexts (texts : List String) : List (List ℚ) := texts.map embedText

/-! ### In-memory store (`VectorStore` with `collection is None`) -/

/-- Python metadata dict, modelled as an ordered association list with
string values. -/
abbrev Metadata := List (String × String)

/-- The four parallel lists of `self.memory_store`. -/
structure MemoryStore where
  ids : List String
  embeddings : List (List ℚ)
  documents : List String
  metadatas : List Metadata
deriving Repr, DecidableEq

def emptyStore : MemoryStore := ⟨[], [], [], []⟩

/-- `metadata.get(key) == value for key, value in filter.items()`, all keys. -/
def metaMatches (filt : Metadata) (m : Metadata) : Bool :=
  filt.all (fun kv => m.lookup kv.1 == some kv.2)

/-- One formatted entry of a search result list. -/
structure SearchResult where
  id : String
  document : String
  metadata : Metadata
  score : ℚ
deriving Repr, DecidableEq

/-- `dict.setdefault`-style insertion used for the ingestion timestamp:
the timestamp key is added only when absent. -/
def dictSetdefault (m : Metadata) (key v : String) : Metadata :=
  if (m.lookup key).isSome then m else m ++ [(key, v)]

/-- `VectorStore.add_documents` on the in-memory fallback path.  `uuid`
models `uuid.uuid4()` (one fresh id per document when `ids` is omitted) and
`now` models `datetime.now().isoformat()`.  Returns the ids together with
the updated store. -/
def addDocuments (store : MemoryStore) (documents : List String)
    (metadatas : Option (List Metadata)) (ids : Option (List String))
    (uuid : Nat → String) (now : String) : List String × MemoryStore :=
  if documents.isEmpty then ([], store)
  else
    let theIds := match ids with
      | some is => is
      | none => (List.range documents.length).map uuid
    let embeddings := embedTexts documents
    let metas := match metadatas with
      | some ms => ms
      | none => List.replicate documents.length []
    let metas := metas.map (fun m => dictSetdefault m "timestamp" now)
    (theIds,
     { ids := store.ids ++ theIds
       embeddings := store.embeddings ++ embeddings
       documents := store.documents ++ documents
       metadatas := store.metadatas ++ metas })

/-- The shared tail of `_numpy_search`: argsort the (possibly filtered)
similarities ascending, take the slice `[-k:]`, reverse, and format each
surviving index back through `filtered_indices`. -/
def formatTopK (store : MemoryStore) (sims : List ℚ) (filteredIndices : List Nat)
    (k : Nat) : List SearchResult :=
  let topKIndices := (sliceLast k (argsortQ sims)).reverse
  topKIndices.map (fun idx =>
    let originalIdx := filteredIndices.getD idx 0
    { id := store.ids.getD originalIdx ""
      document := store.documents.getD originalIdx ""
      metadata := store.metadatas.getD originalIdx []
      score := sims.getD idx 0 })

/-- `VectorStore._numpy_search`.  `sim` abstracts the cosine-similarity
kernel of lines 202-204 (normalised dot product, irrational in general);
everything downstream of the similarity values is modelled exactly,
including the falsy-empty-dict filter check and the `[-k:]` slice. -/
def numpySearch (sim : List ℚ → List ℚ → ℚ) (store : MemoryStore)
    (queryEmbedding : List ℚ) (k : Nat) (filt : Option Metadata) :
    List SearchResult :=
  if store.embeddings.isEmpty then []
  else
    let similarities := store.embeddings.map (fun e => sim queryEmbedding e)
    if (filt.getD []).isEmpty then
      formatTopK store similarities (List.range similarities.length) k
    else
      let f := filt.getD []
      let validIndices := (List.range store.metadatas.length).filter
        (fun i => metaMatches f (store.metadatas.getD i []))
      if validIndices.isEmpty then []
      else
        formatTopK store (validIndices.map (fun i => similarities.getD i 0))
          validIndices k

/-- `VectorStore.search` on the fallback path: embed the query with the
same provider and run the numpy search. -/
def search (sim : List ℚ → List ℚ → ℚ) (store : MemoryStore)
    (query : String) (k : Nat) (filt : Option Metadata) : List SearchResult :=
  numpySearch sim store (embedText query) k filt

/-- Python `list.index` guarded by `in`: the first index of an element,
`none` when absent. -/
def pyIndex (l : List String) (a : String) : Option Nat :=
  match l with
  | [] => none
  | x :: xs => if x == a then some 0 else (pyIndex xs a).map (· + 1)

/-- `VectorStore.delete` for one id on the memory path: find the first
index of the id and pop it from all four lists. -/
def removeId (store : MemoryStore) (idToRemove : String) : MemoryStore :=
  match pyIndex store.ids idToRemove with
  | none => store
  | some idx =>
      { ids := store.ids.eraseIdx idx
        embeddings := store.embeddings.eraseIdx idx
        documents := store.documents.eraseIdx idx
        metadatas := store.metadatas.eraseIdx idx }

/-- `VectorStore.delete`. -/
def deleteIds (store : MemoryStore) (ids : List String) : MemoryStore :=
  ids.foldl removeId store

/-- `VectorStore.clear` on the memory path. -/
def clearStore (_ : MemoryStore) : MemoryStore := emptyStore

/-! ### Hybrid retriever (`HybridRetriever`) -/

/-- Helper for `pyWords`: split a character list at whitespace, dropping
empty pieces, accumulating the current word in reverse. -/
def splitWsAux : List Char → List Char → List String
  | [], acc => if acc.isEmpty then [] else [String.mk acc.reverse]
  | c :: cs, acc =>
      if c.isWhitespace then
        (if acc.isEmpty then splitWsAux cs [] else
          String.mk acc.reverse :: splitWsAux cs [])
      else splitWsAux cs (c :: acc)

/-- Python `s.lower().split()`: lower-case, split on whitespace runs,
no empty pieces. -/
def pyWords (s : String) : List String :=
  splitWsAux (s.data.map Char.toLower) []

/-- The keyword score of `_keyword_search`:
`len(common_words) / len(query_words) if query_words else 0`, where both
word collections are sets.  The division is written with `mkRat` (the
exact rational `num / den`, kernel-computable); `overlapScore_eq_div`
shows it equals the literal cast-and-divide form. -/
def overlapScore (query doc : String) : ℚ :=
  let queryWords := (pyWords query).dedup
  let docWords := (pyWords doc).dedup
  if queryWords.isEmpty then 0
  else mkRat ((queryWords.inter docWords).length : Int) (queryWords.length)

theorem overlapScore_eq_div (query doc : String) :
    overlapScore query doc =
      (if ((pyWords query).dedup).isEmpty then 0
       else ((((pyWords query).dedup.inter ((pyWords doc).dedup)).length : ℚ) /
         (((pyWords query).dedup.length : ℚ)))) := by
  rw [overlapScore]
  split
  · rfl
  · rw [Rat.mkRat_eq_div]
    norm_num

/-- `HybridRetriever._keyword_search` over the memory store: score every
document by term overlap, keep strictly positive scores, apply the
(truthy) filter, sort descending by score (stable), truncate to `k`. -/
def keywordSearch (store : MemoryStore) (query : String) (k : Nat)
    (filt : Option Metadata) : List SearchResult :=
  let results := (List.range store.documents.length).filterMap (fun i =>
    let md := store.metadatas.getD i []
    if !(filt.getD []).isEmpty && !(metaMatches (filt.getD []) md) then none
    else
      let doc := store.documents.getD i ""
      let score := overlapScore query doc
      if 0 < score then
        some { id := store.ids.getD i "", document := doc, metadata := md,
               score := score }
      else none)
  (results.insertionSort (fun a b => b.score ≤ a.score)).take k

/-- One value of the `doc_scores` dict built by `_merge_results`. -/
structure ScoreData where
  document : String
  metadata : Metadata
  semanticScore : ℚ
  keywordScore : ℚ
  finalScore : ℚ
deriving Repr, DecidableEq

/-- One entry of the final merged ranking (six fields as in the source). -/
structure MergedResult where
  id : String
  document : String
  metadata : Metadata
  score : ℚ
  semanticScore : ℚ
  keywordScore : ℚ
deriving Repr, DecidableEq

/-- First loop of `_merge_results`: seed `doc_scores` from the semantic
results (`keyword_score = 0`, `final_score = score * semantic_weight`). -/
def mergePhase1 (semanticResults : List SearchResult) (w : ℚ) :
    List (String × ScoreData) :=
  semanticResults.foldl
    (fun d r => dictSet d r.id ⟨r.document, r.metadata, r.score, 0, r.score * w⟩)
    []

/-- Second loop of `_merge_results`: fold in the keyword results, updating
an existing entry in place or adding a keyword-only entry. -/
def mergePhase2 (d0 : List (String × ScoreData))
    (keywordResults : List SearchResult) (w : ℚ) : List (String × ScoreData) :=
  let kw := 1 - w
  keywordResults.foldl
    (fun d r =>
      match d.lookup r.id with
      | some entry =>
          dictSet d r.id ⟨entry.document, entry.metadata, entry.semanticScore,
            r.score, entry.semanticScore * w + r.score * kw⟩
      | none => dictSet d r.id ⟨r.document, r.metadata, 0, r.score, r.score * kw⟩)
    d0

/-- `HybridRetriever._merge_results`: build `doc_scores`, flatten it, and
sort descending by the fused score (the stable Python `sort` with
`reverse=True`). -/
def mergeResults (semanticResults keywordResults : List SearchResult)
    (semanticWeight : ℚ) : List MergedResult :=
  let docScores :=
    mergePhase2 (mergePhase1 semanticResults semanticWeight) keywordResults
      semanticWeight
  let finalResults := docScores.map (fun kv =>
    { id := kv.1, document := kv.2.document, metadata := kv.2.metadata,
      score := kv.2.finalScore, semanticScore := kv.2.semanticScore,
      keywordScore := kv.2.keywordScore })
  finalResults.insertionSort (fun a b => b.score ≤ a.score)

/-- `HybridRetriever.retrieve`: semantic search for `2k`, keyword search
for `2k`, merge, truncate to `k`. -/
def retrieve (sim : List ℚ → List ℚ → ℚ) (store : MemoryStore) (query : String)
    (k : Nat) (semanticWeight : ℚ) (filt : Option Metadata) : List MergedResult :=
  let semanticResults := search sim store query (k * 2) filt
  let keywordResults := keywordSearch store query (k * 2) filt
  (mergeResults semanticResults keywordResults semanticWeight).take k

/-! ### RAG orchestration (`RAGSystem` in `llm_integration.py`)

The generation backend `LLMProvider.generate` is modelled as a function
`gen : prompt → system_prompt → Except String String`: a Python call that
returns normally is `.ok`, one that raises is `.error`.  `RAGSystem.query`
and `RAGSystem.chat` contain no `try`/`except`, so an exception from the
backend propagates through them (`Except` bind). -/

/-- The result dict of `RAGSystem.query` (the volatile `timestamp` field
is omitted). -/
structure RAGResult where
  answer : String
  sources : List SearchResult
  contextUsed : String
deriving Repr, DecidableEq

/-- `RAGSystem._build_context`. -/
def buildContext (documents : List SearchResult) : String :=
  if documents.isEmpty then ""
  else
    let parts := (documents.enum).foldl
      (fun acc idoc =>
        let timestamp := (idoc.2.metadata.lookup "timestamp").getD "unknown time"
        let source := (idoc.2.metadata.lookup "source").getD "unknown source"
        acc ++ ["\n[" ++ toString (idoc.1 + 1) ++ "] From " ++ source ++ " at " ++
                  timestamp ++ ":",
                idoc.2.document.take 500])
      ["Based on the following information:\n"]
    "\n".intercalate parts

/-- The user prompt assembled by `RAGSystem._generate_answer`. -/
def answerPrompt (question context : String) : String :=
  if context ≠ "" then
    "Context:\n" ++ context ++ "\n\nQuestion: " ++ question ++
    "\n\nPlease provide a comprehensive answer based on the context above. If the context doesn\x27t contain relevant information, say so."
  else question

/-- The system prompt assembled by `RAGSystem._generate_answer`. -/
def answerSystemPrompt (systemContext : String) : String :=
  systemContext ++
  "\n\nGuidelines:\n- Be accurate and cite sources when available\n- If you\x27re not sure, say so\n- Be concise but thorough\n- Respect privacy and confidentiality"

/-- `RAGSystem._generate_answer`: build the prompts and call the backend;
no exception handling. -/
def generateAnswer (gen : String → String → Except String String)
    (systemContext question context : String) : Except String String :=
  gen (answerPrompt question context) (answerSystemPrompt systemContext)

/-- `RAGSystem.query`: retrieve (when `use_context`), build context,
generate, and return the result dict; a generation exception propagates. -/
def ragQuery (sim : List ℚ → List ℚ → ℚ) (store : MemoryStore)
    (gen : String → String → Except String String)
    (systemContext question : String) (k : Nat) (useContext : Bool)
    (filt : Option Metadata) : Except String RAGResult :=
  let retrievedDocs := if useContext then search sim store question k filt else []
  let context := buildContext retrievedDocs
  match generateAnswer gen systemContext question context with
  | .error e => .error e
  | .ok answer => .ok ⟨answer, retrievedDocs, context⟩

/-- Python `str.capitalize`: first character upper-cased, rest lower-cased. -/
def pyCapitalize (s : String) : String := s.toLower.capitalize

/-- The prompt parts assembled by `RAGSystem.chat`: the last five turns of
the conversation history (`conversation_history[-5:]`), the current user
message, and a context preamble inserted at the front when retrieval
found memories. -/
def chatPromptParts (history : List (String × String)) (message context : String) :
    List String :=
  let promptParts := (sliceLast 5 history).map
    (fun rc => pyCapitalize rc.1 ++ ": " ++ rc.2)
  let promptParts := promptParts ++ ["User: " ++ message]
  if context ≠ "" then
    ("Relevant memories:\n" ++ context ++ "\n") :: promptParts
  else promptParts

/-- `RAGSystem.chat`: retrieve three memories for the message, assemble the
prompt, and call the backend (persona omitted / `None`). -/
def ragChat (sim : List ℚ → List ℚ → ℚ) (store : MemoryStore)
    (gen : String → String → Except String String)
    (systemContext message : String) (history : List (String × String)) :
    Except String String :=
  let retrieved := search sim store message 3 none
  let context := buildContext retrieved
  let prompt := "\n".intercalate (chatPromptParts history message context)
  gen prompt systemContext

/-! ### Basic lemmas about the model -/

theorem embedTexts_length (texts : List String) :
    (embedTexts texts).length = texts.length := by
  simp [embedTexts]

theorem embedText_length (t : String) :
    (embedText t).length = embeddingDimension := by
  simp only [embedText]
  have h2 : (((sha256Bytes t).take embeddingDimension).map
      (fun b : Nat => (b : ℚ) / 255)).length = 32 := by
    rw [List.length_map, List.length_take, sha256Bytes_length]; decide
  have hlt : (((sha256Bytes t).take embeddingDimension).map
      (fun b : Nat => (b : ℚ) / 255)).length < embeddingDimension := by
    rw [h2]; decide
  rw [if_pos hlt, List.length_append, List.length_replicate, h2]; decide

/-- The four-parallel-lists invariant of the in-memory store (claim C10). -/
def StoreInv (s : MemoryStore) : Prop :=
  s.embeddings.length = s.ids.length ∧ s.documents.length = s.ids.length ∧
    s.metadatas.length = s.ids.length

instance : DecidablePred StoreInv := fun s => by unfold StoreInv; infer_instance

theorem pyIndex_lt_length {l : List String} {a : String} {i : Nat}
    (h : pyIndex l a = some i) : i < l.length := by
  induction l generalizing i with
  | nil => simp [pyIndex] at h
  | cons x xs ih =>
    rw [pyIndex] at h
    by_cases hx : (x == a) = true
    · rw [if_pos hx] at h
      cases h
      simp
    · rw [if_neg hx] at h
      rw [Option.map_eq_some'] at h
      obtain ⟨j, hj, rfl⟩ := h
      have := ih hj
      simp only [List.length_cons]
      omega

theorem removeId_storeInv {s : MemoryStore} (hinv : StoreInv s) (a : String) :
    StoreInv (removeId s a) := by
  unfold removeId
  cases h : pyIndex s.ids a with
  | none => exact hinv
  | some i =>
    have hi := pyIndex_lt_length h
    obtain ⟨h1, h2, h3⟩ := hinv
    refine ⟨?_, ?_, ?_⟩ <;>
      simp only [List.length_eraseIdx] <;>
      split <;> omega

theorem deleteIds_storeInv {s : MemoryStore} (hinv : StoreInv s)
    (ids : List String) : StoreInv (deleteIds s ids) := by
  induction ids generalizing s with
  | nil => exact hinv
  | cons x xs ih =>
    rw [deleteIds, List.foldl_cons]
    exact ih (removeId_storeInv hinv x)

/-! ### Claim theorems -/

/-- C7: under the fallback embedding strategy, `_embed_texts` is a
deterministic function of each text alone: equal texts in the input list
receive identical (bit-for-bit, here value-for-value) embedding vectors. -/
theorem c7_fallback_embedding_deterministic (texts : List String) (i j : Nat)
    (hi : i < texts.length) (hj : j < texts.length)
    (heq : texts.get ⟨i, hi⟩ = texts.get ⟨j, hj⟩) :
    (embedTexts texts).get ⟨i, by rw [embedTexts_length]; exact hi⟩ =
      (embedTexts texts).get ⟨j, by rw [embedTexts_length]; exact hj⟩ := by
  simp only [embedTexts, List.get_eq_getElem, List.getElem_map] at *
  exact congrArg embedText heq

/-- Witness for C7 at a concrete input: the same text twice yields the
same vector twice. -/
theorem c7_witness :
    ["same text", "same text"].get ⟨0, by decide⟩ =
        ["same text", "same text"].get ⟨1, by decide⟩ ∧
      (embedTexts ["same text", "same text"]).get
          ⟨0, by rw [embedTexts_length]; decide⟩ =
        (embedTexts ["same text", "same text"]).get
          ⟨1, by rw [embedTexts_length]; decide⟩ :=
  ⟨rfl, c7_fallback_embedding_deterministic ["same text", "same text"] 0 1
    (by decide) (by decide) rfl⟩

/-- C8: if every embedding already stored has length
`embedding_dimension`, then after any `add_documents` call every stored
embedding still has length `embedding_dimension` (the fallback embedding
truncates the 32-byte digest and zero-pads to the dimension). -/
theorem c8_dimension_invariant (store : MemoryStore) (documents : List String)
    (metadatas : Option (List Metadata)) (ids : Option (List String))
    (uuid : Nat → String) (now : String)
    (hstore : ∀ e ∈ store.embeddings, e.length = embeddingDimension) :
    ∀ e ∈ (addDocuments store documents metadatas ids uuid now).2.embeddings,
      e.length = embeddingDimension := by
  intro e he
  unfold addDocuments at he
  by_cases hd : documents.isEmpty
  · rw [if_pos hd] at he
    exact hstore e he
  · rw [if_neg hd] at he
    simp only [List.mem_append] at he
    rcases he with h1 | h2
    · exact hstore e h1
    · rw [embedTexts, List.mem_map] at h2
      obtain ⟨t, _, rfl⟩ := h2
      exact embedText_length t

/-- Witness for C8 at a concrete input: adding one document to the empty
store. -/
theorem c8_witness :
    (∀ e ∈ emptyStore.embeddings, e.length = embeddingDimension) ∧
      ∀ e ∈ (addDocuments emptyStore ["hello world"] none none
          (fun i => toString i) "2024-01-01").2.embeddings,
        e.length = embeddingDimension :=
  ⟨by simp [emptyStore], c8_dimension_invariant emptyStore ["hello world"]
    none none (fun i => toString i) "2024-01-01" (by simp [emptyStore])⟩

/-- Counterexample to C10 as stated: `add_documents` called with a
metadata list longer than the document list silently breaks the
parallel-lists invariant (one id and one embedding, two metadatas). -/
theorem c10_counterexample :
    ¬ StoreInv (addDocuments emptyStore ["a"] (some [[], []]) none
        (fun _ => "u") "t").2 := by
  decide

/-- C10 (amended): the equal-length invariant of the four parallel lists
holds initially and is preserved by `clear`, by `delete`, and by every
`add_documents` call whose explicit `metadatas` and `ids` arguments (when
given) have the same length as `documents`. -/
theorem c10_parallel_lists_invariant (store : MemoryStore)
    (documents : List String) (metadatas : Option (List Metadata))
    (ids : Option (List String)) (uuid : Nat → String) (now : String)
    (delIds : List String) (hinv : StoreInv store)
    (hm : ∀ ms, metadatas = some ms → ms.length = documents.length)
    (hi : ∀ l, ids = some l → l.length = documents.length) :
    StoreInv emptyStore ∧
      StoreInv (addDocuments store documents metadatas ids uuid now).2 ∧
      StoreInv (deleteIds store delIds) ∧
      StoreInv (clearStore store) := by
  obtain ⟨h1, h2, h3⟩ := hinv
  refine ⟨by decide, ?_, deleteIds_storeInv ⟨h1, h2, h3⟩ delIds, ⟨rfl, rfl, rfl⟩⟩
  unfold addDocuments
  by_cases hd : documents.isEmpty
  · rw [if_pos hd]
    exact ⟨h1, h2, h3⟩
  · rw [if_neg hd]
    have hids : (match ids with
        | some is => is
        | none => (List.range documents.length).map uuid).length =
        documents.length := by
      cases ids with
      | some l => exact hi l rfl
      | none => simp
    have hmet : (match metadatas with
        | some ms => ms
        | none => List.replicate documents.length
            ([] : Metadata)).length = documents.length := by
      cases metadatas with
      | some ms => exact hm ms rfl
      | none => simp
    refine ⟨?_, ?_, ?_⟩ <;>
      simp only [List.length_append, List.length_map, embedTexts_length,
        hids, hmet, h1, h2, h3]

/-- Witness for C10 at a concrete input: one add, one delete, one clear
starting from a store holding one document. -/
theorem c10_witness :
    StoreInv emptyStore ∧
      StoreInv (addDocuments ⟨["x"], [[1]], ["d"], [[]]⟩ ["a", "b"]
        (some [[], []]) (some ["i", "j"]) (fun _ => "u") "t").2 ∧
      StoreInv (deleteIds ⟨["x"], [[1]], ["d"], [[]]⟩ ["x", "y"]) ∧
      StoreInv (clearStore ⟨["x"], [[1]], ["d"], [[]]⟩) :=
  c10_parallel_lists_invariant ⟨["x"], [[1]], ["d"], [[]]⟩ ["a", "b"]
    (some [[], []]) (some ["i", "j"]) (fun _ => "u") "t" ["x", "y"]
    (by decide) (by intro ms h; cases h; decide) (by intro l h; cases h; decide)

/-- Counterexample to C1 as stated: with one stored passage retrieved
successfully and a generation backend that raises, `RAGSystem.query`
propagates the failure instead of returning a non-error degraded-mode
result whose answer is the top passage (no such fallback or flag exists in
the code). -/
theorem c1_counterexample :
    ragQuery (fun _ _ => 1) ⟨["a"], [[1]], ["the passage"], [[]]⟩
        (fun _ _ => Except.error "generation failed") "sys" "q" 5 true none =
      Except.error "generation failed" ∧
    (search (fun _ _ => 1) ⟨["a"], [[1]], ["the passage"], [[]]⟩ "q" 5
        none).length = 1 := by
  exact ⟨rfl, by decide⟩

/-- C1 (amended): `RAGSystem.query` returns the generated text together
with the retrieved sources when the generation call returns normally, and
propagates the generation failure to the caller when it raises; there is
no degraded-mode fallback to the top retrieved passage. -/
theorem c1_generation_failure_propagates (sim : List ℚ → List ℚ → ℚ)
    (store : MemoryStore) (gen : String → String → Except String String)
    (systemContext question : String) (k : Nat) (filt : Option Metadata) :
    (∀ e, generateAnswer gen systemContext question
        (buildContext (search sim store question k filt)) = Except.error e →
      ragQuery sim store gen systemContext question k true filt =
        Except.error e) ∧
    (∀ a, generateAnswer gen systemContext question
        (buildContext (search sim store question k filt)) = Except.ok a →
      ragQuery sim store gen systemContext question k true filt =
        Except.ok ⟨a, search sim store question k filt,
          buildContext (search sim store question k filt)⟩) := by
  constructor <;> intro x h <;> simp only [ragQuery, if_true] <;> rw [h]

/-- Witness for C1 at a concrete input: a backend failure propagates out
of `ragQuery`. -/
theorem c1_witness :
    generateAnswer (fun _ _ => Except.error "timeout") "s" "q"
        (buildContext (search (fun _ _ => 1) ⟨["a"], [[1]], ["p"], [[]]⟩
          "q" 2 none)) = Except.error "timeout" ∧
    ragQuery (fun _ _ => 1) ⟨["a"], [[1]], ["p"], [[]]⟩
        (fun _ _ => Except.error "timeout") "s" "q" 2 true none =
      Except.error "timeout" :=
  ⟨rfl, (c1_generation_failure_propagates (fun _ _ => 1)
    ⟨["a"], [[1]], ["p"], [[]]⟩ (fun _ _ => Except.error "timeout")
    "s" "q" 2 none).1 "timeout" rfl⟩

/-- C3: the prompt `RAGSystem.chat` sends to the generation backend
consists of an optional memories preamble, the formatted last
`min 5 |history|` turns of the conversation history (a suffix, so the
oldest turns are dropped first; in particular at most 10 prior turns),
and, always last, the current user message. -/
theorem c3_chat_window_bound (sim : List ℚ → List ℚ → ℚ) (store : MemoryStore)
    (gen : String → String → Except String String) (systemContext : String)
    (history : List (String × String)) (message context : String) :
    ragChat sim store gen systemContext message history =
      gen ("\n".intercalate (chatPromptParts history message
        (buildContext (search sim store message 3 none)))) systemContext ∧
    chatPromptParts history message context =
      (if context ≠ "" then ["Relevant memories:\n" ++ context ++ "\n"]
        else []) ++
      (history.drop (history.length - 5)).map
        (fun rc => pyCapitalize rc.1 ++ ": " ++ rc.2) ++
      ["User: " ++ message] ∧
    (history.drop (history.length - 5)).length = min 5 history.length ∧
    (history.drop (history.length - 5)).length ≤ 10 ∧
    List.IsSuffix (history.drop (history.length - 5)) history ∧
    (chatPromptParts history message context).getLast? =
      some ("User: " ++ message) := by
  have hpp : chatPromptParts history message context =
      (if context ≠ "" then ["Relevant memories:\n" ++ context ++ "\n"]
        else []) ++
      (history.drop (history.length - 5)).map
        (fun rc => pyCapitalize rc.1 ++ ": " ++ rc.2) ++
      ["User: " ++ message] := by
    rw [chatPromptParts, sliceLast, if_neg (by decide : ¬(5 = 0))]
    by_cases hc : context = ""
    · rw [if_neg (by simp [hc]), if_neg (by simp [hc]), List.nil_append]
    · rw [if_pos (by simp [hc]), if_pos (by simp [hc])]
      simp
  have hlen : (history.drop (history.length - 5)).length =
      min 5 history.length := by
    rw [List.length_drop]; omega
  refine ⟨rfl, hpp, hlen, by omega, List.drop_suffix _ _, ?_⟩
  rw [hpp, List.getLast?_concat]

theorem sliceLast_length_le {k : Nat} (hk : k ≠ 0) (xs : List α) :
    (sliceLast k xs).length ≤ k := by
  rw [sliceLast, if_neg hk, List.length_drop]
  omega

theorem mem_of_mem_sliceLast {k : Nat} {xs : List α} {a : α}
    (h : a ∈ sliceLast k xs) : a ∈ xs := by
  rw [sliceLast] at h
  split at h
  · exact h
  · exact List.mem_of_mem_drop h

theorem mem_argsortQ_lt {xs : List ℚ} {i : Nat} (h : i ∈ argsortQ xs) :
    i < xs.length := by
  rw [argsortQ, List.mem_insertionSort] at h
  exact List.mem_range.mp h

theorem getD_map_of_lt {α β} (f : α → β) {l : List α} {i : Nat}
    (h : i < l.length) (d : α) (d2 : β) :
    (l.map f).getD i d2 = f (l.getD i d) := by
  rw [List.getD_eq_getElem _ _ (by simpa using h), List.getD_eq_getElem _ _ h,
    List.getElem_map]

theorem getD_range_of_lt {n i : Nat} (h : i < n) :
    (List.range n).getD i 0 = i := by
  rw [List.getD_eq_getElem _ _ (by simpa using h)]
  simp

theorem mem_formatTopK {store : MemoryStore} {sims : List ℚ}
    {filteredIndices : List Nat} {k : Nat} {r : SearchResult}
    (hr : r ∈ formatTopK store sims filteredIndices k) :
    ∃ idx, idx ∈ argsortQ sims ∧
      r = ⟨store.ids.getD (filteredIndices.getD idx 0) "",
           store.documents.getD (filteredIndices.getD idx 0) "",
           store.metadatas.getD (filteredIndices.getD idx 0) [],
           sims.getD idx 0⟩ := by
  rw [formatTopK] at hr
  simp only [List.mem_map, List.mem_reverse] at hr
  obtain ⟨idx, hidx, rfl⟩ := hr
  exact ⟨idx, mem_of_mem_sliceLast hidx, rfl⟩

/-- Counterexample to C5 as stated for every `k`: at `k = 0` the slice
`similarities[-0:]` is the whole array, so the unfiltered search of a
two-document store returns 2 > 0 results. -/
theorem c5_counterexample :
    ¬ ((search (fun _ _ => 1) ⟨["a", "b"], [[1], [1]], ["d1", "d2"],
        [[], []]⟩ "q" 0 none).length ≤ 0) := by
  decide

/-- C5 (amended): for every `k ≥ 1`, `VectorStore.search` returns at most
`k` results, however many documents the corpus holds. -/
theorem c5_k_bound (sim : List ℚ → List ℚ → ℚ) (store : MemoryStore)
    (q : String) (k : Nat) (filt : Option Metadata) (hk : 1 ≤ k) :
    (search sim store q k filt).length ≤ k := by
  have hk0 : k ≠ 0 := by omega
  rw [search, numpySearch]
  split
  · simp
  · dsimp only
    split
    · simp only [formatTopK, List.length_map, List.length_reverse]
      exact sliceLast_length_le hk0 _
    · split
      · simp
      · simp only [formatTopK, List.length_map, List.length_reverse]
        exact sliceLast_length_le hk0 _

/-- Witness for C5 at a concrete input: a three-result bound over a
four-document store. -/
theorem c5_witness :
    (search (fun _ _ => 1) ⟨["a", "b", "c", "d"], [[1], [1], [1], [1]],
        ["d1", "d2", "d3", "d4"], [[], [], [], []]⟩ "q" 3 none).length ≤ 3 :=
  c5_k_bound (fun _ _ => 1) ⟨["a", "b", "c", "d"], [[1], [1], [1], [1]],
    ["d1", "d2", "d3", "d4"], [[], [], [], []]⟩ "q" 3 none (by decide)

/-- C6: every result of a filtered `_numpy_search` has stored metadata
that matches the filter on all given keys; non-matching documents never
appear. -/
theorem c6_filter_correctness (sim : List ℚ → List ℚ → ℚ)
    (store : MemoryStore) (qe : List ℚ) (k : Nat) (f : Metadata)
    (r : SearchResult) (hr : r ∈ numpySearch sim store qe k (some f)) :
    metaMatches f r.metadata = true := by
  rw [numpySearch] at hr
  split at hr
  · simp at hr
  · dsimp only at hr
    split at hr
    · have hf : f = [] := by
        simpa [List.isEmpty_iff] using ‹((some f).getD [] : Metadata).isEmpty = true›
      subst hf
      rfl
    · split at hr
      · simp at hr
      · obtain ⟨idx, hidx, rfl⟩ := mem_formatTopK hr
        have hlt : idx < ((List.range store.metadatas.length).filter
            (fun i => metaMatches ((some f).getD [])
              (store.metadatas.getD i []))).length := by
          have := mem_argsortQ_lt hidx
          simpa using this
        have hmem : ((List.range store.metadatas.length).filter
            (fun i => metaMatches ((some f).getD [])
              (store.metadatas.getD i []))).getD idx 0 ∈
            (List.range store.metadatas.length).filter
              (fun i => metaMatches ((some f).getD [])
                (store.metadatas.getD i [])) := by
          rw [List.getD_eq_getElem _ _ hlt]
          exact List.getElem_mem _
        have := (List.mem_filter.mp hmem).2
        simpa using this

/-- Witness for C6 at a concrete input: a category filter only returns the
matching document. -/
theorem c6_witness :
    (⟨"a", "d1", [("category", "teachings")], 1⟩ : SearchResult) ∈
      numpySearch (fun _ _ => 1) ⟨["a", "b"], [[1], [1]], ["d1", "d2"],
        [[("category", "teachings")], [("category", "daily_life")]]⟩ [] 2
        (some [("category", "teachings")]) ∧
    metaMatches [("category", "teachings")]
      (⟨"a", "d1", [("category", "teachings")], 1⟩ : SearchResult).metadata =
      true :=
  ⟨by decide, c6_filter_correctness (fun _ _ => 1)
    ⟨["a", "b"], [[1], [1]], ["d1", "d2"],
      [[("category", "teachings")], [("category", "daily_life")]]⟩ [] 2
    [("category", "teachings")] ⟨"a", "d1", [("category", "teachings")], 1⟩
    (by decide)⟩

/-- The formatted `_numpy_search` result for original index `idx` of an
unfiltered search with similarity array `sims`. -/
def resultAtIndex (store : MemoryStore) (sims : List ℚ) (idx : Nat) :
    SearchResult :=
  ⟨store.ids.getD idx "", store.documents.getD idx "",
   store.metadatas.getD idx [], sims.getD idx 0⟩

/-- Counterexample to C9 as stated: two documents with identical
embeddings (hence equal similarity to any query) come back in reverse
insertion order, not insertion order. -/
theorem c9_counterexample :
    (numpySearch (fun _ _ => 1) ⟨["a", "b"], [[1], [1]], ["doc", "doc"],
        [[], []]⟩ [] 2 none).map (fun r => r.id) = ["b", "a"] ∧
    ¬ ((numpySearch (fun _ _ => 1) ⟨["a", "b"], [[1], [1]], ["doc", "doc"],
        [[], []]⟩ [] 2 none).map (fun r => r.id) = ["a", "b"]) := by
  exact ⟨by decide, by decide⟩

/-- C9 (amended): for a store of fewer than 16 documents — the regime in
which the default `np.argsort` runs its stable insertion-sort base case,
so its tie order is determined — when two stored documents receive equal
similarity scores, an unfiltered `_numpy_search` whose `k` covers the
store returns them in reverse insertion order: the later-inserted
document appears before the earlier-inserted one (the ascending stable
argsort is sliced with `[-k:]` and then reversed).  For 16 or more
elements numpy leaves the tie order unspecified, and no order is
claimed. -/
theorem c9_tie_break_reverse_insertion (sim : List ℚ → List ℚ → ℚ)
    (store : MemoryStore) (qe : List ℚ) (k i j : Nat)
    (_hsmall : store.embeddings.length < 16)
    (hij : i < j) (hj : j < store.embeddings.length)
    (hk : store.embeddings.length ≤ k)
    (heq : sim qe (store.embeddings.getD i []) =
      sim qe (store.embeddings.getD j [])) :
    [resultAtIndex store (store.embeddings.map (sim qe)) j,
     resultAtIndex store (store.embeddings.map (sim qe)) i].Sublist
      (numpySearch sim store qe k none) := by
  have hn : 0 < store.embeddings.length := by omega
  have hne : ¬ (store.embeddings.isEmpty = true) := by
    cases he : store.embeddings with
    | nil => rw [he] at hn; simp at hn
    | cons x xs => simp [he]
  rw [numpySearch, if_neg hne]
  have hfe : ((none : Option Metadata).getD []).isEmpty = true := by rfl
  rw [if_pos hfe, formatTopK]
  have hlen : (store.embeddings.map (sim qe)).length =
      store.embeddings.length := List.length_map _ _
  have hslice : sliceLast k (argsortQ (store.embeddings.map (sim qe))) =
      argsortQ (store.embeddings.map (sim qe)) := by
    rw [sliceLast, if_neg (by omega : ¬ (k = 0))]
    have : (argsortQ (store.embeddings.map (sim qe))).length =
        store.embeddings.length := by
      rw [argsortQ, List.length_insertionSort, List.length_range, hlen]
    rw [this]
    have : store.embeddings.length - k = 0 := by omega
    rw [this, List.drop_zero]
  rw [hslice]
  have hpair : [i, j].Sublist
      (argsortQ (store.embeddings.map (sim qe))) := by
    rw [argsortQ, hlen]
    refine List.pair_sublist_insertionSort ?_ ?_
    · show (store.embeddings.map (sim qe)).getD i 0 ≤
        (store.embeddings.map (sim qe)).getD j 0
      rw [getD_map_of_lt (sim qe) (by omega) ([] : List ℚ) 0,
        getD_map_of_lt (sim qe) hj ([] : List ℚ) 0, heq]
    · have h1 : List.Sublist [i] (List.range j) :=
        List.singleton_sublist.mpr (List.mem_range.mpr hij)
      have h2 : List.Sublist ([i] ++ [j]) (List.range j ++ [j]) :=
        List.Sublist.append h1 (List.Sublist.refl [j])
      rw [← List.range_succ] at h2
      exact h2.trans (List.range_sublist.mpr (by omega))
  have hrev := hpair.reverse
  simp only [List.reverse_cons, List.reverse_nil, List.nil_append,
    List.cons_append] at hrev
  have hmap := hrev.map (fun idx =>
    ({ id := store.ids.getD ((List.range
        (store.embeddings.map (sim qe)).length).getD idx 0) ""
       document := store.documents.getD ((List.range
        (store.embeddings.map (sim qe)).length).getD idx 0) ""
       metadata := store.metadatas.getD ((List.range
        (store.embeddings.map (sim qe)).length).getD idx 0) []
       score := (store.embeddings.map (sim qe)).getD idx 0 } : SearchResult))
  simp only [List.map_cons, List.map_nil] at hmap
  have hgi : (List.range (store.embeddings.map (sim qe)).length).getD i 0 = i :=
    getD_range_of_lt (by omega)
  have hgj : (List.range (store.embeddings.map (sim qe)).length).getD j 0 = j :=
    getD_range_of_lt (by omega)
  rw [hgi, hgj] at hmap
  exact hmap

/-- Witness for C9 (amended) at a concrete input: two tied documents in a
two-document store. -/
theorem c9_witness :
    [resultAtIndex ⟨["a", "b"], [[1], [1]], ["doc", "doc"], [[], []]⟩
        ((([[1], [1]] : List (List ℚ))).map (fun _ => (1 : ℚ))) 1,
     resultAtIndex ⟨["a", "b"], [[1], [1]], ["doc", "doc"], [[], []]⟩
        ((([[1], [1]] : List (List ℚ))).map (fun _ => (1 : ℚ))) 0].Sublist
      (numpySearch (fun _ _ => 1) ⟨["a", "b"], [[1], [1]], ["doc", "doc"],
        [[], []]⟩ [] 2 none) :=
  c9_tie_break_reverse_insertion (fun _ _ => 1)
    ⟨["a", "b"], [[1], [1]], ["doc", "doc"], [[], []]⟩ [] 2 0 1
    (by decide) (by decide) (by decide) (by decide) rfl

/-! ### Characterisation of `_merge_results`

`doc_scores` is a Python dict keyed by document id.  With duplicate-free
id lists on both sides, the two loops of `_merge_results` produce, in
order: one entry per semantic result (updated in place with its keyword
score when the same id also appears in the keyword ranking), followed by
one entry per keyword-only result, in ranking order. -/

/-- The value `doc_scores[id]` ends up with for a semantic result `r`,
given the keyword result (if any) sharing its id. -/
def semEntry (w : ℚ) (r : SearchResult) (kfind : Option SearchResult) :
    ScoreData :=
  match kfind with
  | some kr => ⟨r.document, r.metadata, r.score, kr.score,
      r.score * w + kr.score * (1 - w)⟩
  | none => ⟨r.document, r.metadata, r.score, 0, r.score * w⟩

/-- The value `doc_scores[id]` ends up with for a keyword-only result. -/
def kwOnlyEntry (w : ℚ) (kr : SearchResult) : ScoreData :=
  ⟨kr.document, kr.metadata, 0, kr.score, kr.score * (1 - w)⟩

/-- The `doc_scores` dict after the semantic loop and the first `done`
keyword results have been folded in. -/
def mergedDictPartial (semR done : List SearchResult) (w : ℚ) :
    List (String × ScoreData) :=
  semR.map (fun r => (r.id, semEntry w r
      (done.find? (fun kr => kr.id == r.id)))) ++
  (done.filter (fun kr => semR.all (fun r => !(r.id == kr.id)))).map
    (fun kr => (kr.id, kwOnlyEntry w kr))

theorem dictSet_fresh {α} (d : List (String × α)) (key : String) (v : α)
    (h : ∀ kv ∈ d, ¬ (kv.1 == key)) : dictSet d key v = d ++ [(key, v)] := by
  rw [dictSet, if_neg]
  simp only [List.any_eq_true, not_exists, not_and]
  intro kv hkv
  exact h kv hkv

theorem lookup_append_or {α} (d₁ d₂ : List (String × α)) (key : String) :
    (d₁ ++ d₂).lookup key = ((d₁.lookup key).or (d₂.lookup key)) := by
  induction d₁ with
  | nil => simp
  | cons kv rest ih =>
    obtain ⟨k, v⟩ := kv
    rw [List.cons_append, List.lookup_cons, List.lookup_cons]
    cases hk : key == k with
    | true => rfl
    | false => exact ih

theorem lookup_map_pair_eq_none {β} (l : List SearchResult) (key : String)
    (g : SearchResult → β) (h : ∀ r ∈ l, ¬ (r.id == key)) :
    (l.map (fun r => (r.id, g r))).lookup key = none := by
  induction l with
  | nil => rfl
  | cons x xs ih =>
    rw [List.map_cons, List.lookup_cons]
    have hx : (key == x.id) = false := by
      have := h x (by simp)
      cases hke : key == x.id
      · rfl
      · exact absurd (by rw [eq_of_beq hke]; exact beq_self_eq_true x.id) this
    rw [hx]
    exact ih (fun r hr => h r (List.mem_cons_of_mem x hr))

theorem lookup_map_pair_eq_some {β} {l : List SearchResult} {r₀ : SearchResult}
    (g : SearchResult → β) (hnd : (l.map (fun r => r.id)).Nodup)
    (hmem : r₀ ∈ l) :
    (l.map (fun r => (r.id, g r))).lookup r₀.id = some (g r₀) := by
  induction l with
  | nil => simp at hmem
  | cons x xs ih =>
    obtain ⟨hx1, hx2⟩ : x.id ∉ List.map (fun r => r.id) xs ∧
        (List.map (fun r => r.id) xs).Nodup := by
      rw [List.map_cons, List.nodup_cons] at hnd
      exact hnd
    rw [List.map_cons, List.lookup_cons]
    rcases List.mem_cons.mp hmem with rfl | hxs
    · rw [beq_self_eq_true]
    · have hx : (r₀.id == x.id) = false := by
        cases hke : r₀.id == x.id
        · rfl
        · exact absurd (eq_of_beq hke ▸ List.mem_map_of_mem _ hxs) hx1
      rw [hx]
      exact ih hx2 hxs

theorem find?_id_eq_some_of_nodup {l : List SearchResult} {r₀ : SearchResult}
    (hnd : (l.map (fun r => r.id)).Nodup) (hmem : r₀ ∈ l) :
    l.find? (fun r => r.id == r₀.id) = some r₀ := by
  induction l with
  | nil => simp at hmem
  | cons x xs ih =>
    obtain ⟨hx1, hx2⟩ : x.id ∉ List.map (fun r => r.id) xs ∧
        (List.map (fun r => r.id) xs).Nodup := by
      rw [List.map_cons, List.nodup_cons] at hnd
      exact hnd
    rcases List.mem_cons.mp hmem with rfl | hxs
    · exact List.find?_cons_of_pos _ (beq_self_eq_true r₀.id)
    · rw [List.find?_cons_of_neg]
      · exact ih hx2 hxs
      · intro hc
        exact absurd ((eq_of_beq hc).symm ▸ List.mem_map_of_mem _ hxs) hx1

theorem find?_id_eq_none {l : List SearchResult} {key : String}
    (h : ∀ r ∈ l, ¬ (r.id == key)) :
    l.find? (fun r => r.id == key) = none :=
  List.find?_eq_none.mpr h

/-- The semantic-only (resp. keyword-only) score a ranking assigns to an
id: the score of the entry carrying that id, or 0 when the id is absent. -/
def scoreOf (results : List SearchResult) (key : String) : ℚ :=
  ((results.find? (fun r => r.id == key)).map (fun r => r.score)).getD 0

theorem foldl_dictSet_eq_append {β} (f : SearchResult → β)
    (l : List SearchResult) (d : List (String × β))
    (hnd : (l.map (fun r => r.id)).Nodup)
    (hfresh : ∀ r ∈ l, ∀ kv ∈ d, ¬ (kv.1 == r.id)) :
    l.foldl (fun acc r => dictSet acc r.id (f r)) d =
      d ++ l.map (fun r => (r.id, f r)) := by
  induction l generalizing d with
  | nil => simp
  | cons x xs ih =>
    obtain ⟨hx1, hx2⟩ : x.id ∉ List.map (fun r => r.id) xs ∧
        (List.map (fun r => r.id) xs).Nodup := by
      rw [List.map_cons, List.nodup_cons] at hnd
      exact hnd
    rw [List.foldl_cons,
      dictSet_fresh _ _ _ (fun kv hkv => hfresh x (by simp) kv hkv),
      ih _ hx2 ?_, List.map_cons, List.append_assoc]
    · rfl
    · intro r hr kv hkv
      rcases List.mem_append.mp hkv with h1 | h2
      · exact hfresh r (List.mem_cons_of_mem x hr) kv h1
      · have hkv2 : kv = (x.id, f x) := by simpa using h2
        subst hkv2
        intro hc
        have hc2 : x.id = r.id := eq_of_beq hc
        have : x.id ∈ List.map (fun y => y.id) xs := by
          rw [hc2]
          exact List.mem_map_of_mem _ hr
        exact hx1 this

theorem mergePhase1_eq (semR : List SearchResult) (w : ℚ)
    (hnd : (semR.map (fun r => r.id)).Nodup) :
    mergePhase1 semR w = mergedDictPartial semR [] w := by
  have h := foldl_dictSet_eq_append
    (fun r => (⟨r.document, r.metadata, r.score, 0, r.score * w⟩ : ScoreData))
    semR [] hnd (by intro r _ kv hkv; simp at hkv)
  rw [List.nil_append] at h
  have h2 : mergedDictPartial semR [] w = semR.map (fun r =>
      (r.id, (⟨r.document, r.metadata, r.score, 0, r.score * w⟩ :
        ScoreData))) := by
    rw [mergedDictPartial]
    simp only [List.filter_nil, List.map_nil, List.append_nil]
    rfl
  rw [h2]
  exact h

theorem beq_comm_false {a b : String} (h : ¬ (a == b) = true) :
    (b == a) = false := by
  cases hke : b == a with
  | false => rfl
  | true => exact absurd (beq_iff_eq.mpr (eq_of_beq hke).symm) h

theorem mergePhase2_step (semR P : List SearchResult) (r : SearchResult)
    (w : ℚ) (hndS : (semR.map (fun x => x.id)).Nodup)
    (hrP : ∀ p ∈ P, ¬ (p.id == r.id)) :
    (match (mergedDictPartial semR P w).lookup r.id with
      | some entry => dictSet (mergedDictPartial semR P w) r.id
          ⟨entry.document, entry.metadata, entry.semanticScore, r.score,
            entry.semanticScore * w + r.score * (1 - w)⟩
      | none => dictSet (mergedDictPartial semR P w) r.id
          ⟨r.document, r.metadata, 0, r.score, r.score * (1 - w)⟩)
    = mergedDictPartial semR (P ++ [r]) w := by
  have hfindPr : P.find? (fun kr => kr.id == r.id) = none :=
    find?_id_eq_none hrP
  by_cases hc : ∃ r₀ ∈ semR, r₀.id = r.id
  · -- the keyword result updates an existing semantic entry in place
    obtain ⟨r₀, hr₀mem, hr₀id⟩ := hc
    have hinj := List.inj_on_of_nodup_map hndS
    have hfind₀ : P.find? (fun kr => kr.id == r₀.id) = none := by
      rw [hr₀id]
      exact hfindPr
    have hlookA : (semR.map (fun x => (x.id, semEntry w x
        (P.find? (fun kr => kr.id == x.id))))).lookup r.id =
        some (semEntry w r₀ none) := by
      have h1 : (semR.map (fun x => (x.id, semEntry w x
          (P.find? (fun kr => kr.id == x.id))))).lookup r₀.id =
          some (semEntry w r₀ (P.find? (fun kr => kr.id == r₀.id))) :=
        lookup_map_pair_eq_some (fun x => semEntry w x
          (P.find? (fun kr => kr.id == x.id))) hndS hr₀mem
      rw [hfind₀] at h1
      rw [← hr₀id]
      exact h1
    have hlook : (mergedDictPartial semR P w).lookup r.id =
        some (semEntry w r₀ none) := by
      rw [mergedDictPartial, lookup_append_or, hlookA]
      rfl
    have hany : (mergedDictPartial semR P w).any
        (fun kv => kv.1 == r.id) = true := by
      rw [List.any_eq_true]
      refine ⟨(r₀.id, semEntry w r₀ (P.find? (fun kr => kr.id == r₀.id))),
        ?_, by simpa using hr₀id⟩
      rw [mergedDictPartial]
      exact List.mem_append_left _ (List.mem_map_of_mem _ hr₀mem)
    rw [hlook]
    show dictSet (mergedDictPartial semR P w) r.id (semEntry w r₀ (some r)) =
      mergedDictPartial semR (P ++ [r]) w
    rw [dictSet, if_pos hany]
    have hfilter : (P ++ [r]).filter (fun kr => semR.all
        (fun x => !(x.id == kr.id))) =
        P.filter (fun kr => semR.all (fun x => !(x.id == kr.id))) := by
      rw [List.filter_append]
      have hall : (semR.all (fun x => !(x.id == r.id))) = false := by
        rw [List.all_eq_false]
        exact ⟨r₀, hr₀mem, by simp [hr₀id]⟩
      simp [hall]
    conv_lhs => rw [mergedDictPartial]
    conv_rhs => rw [mergedDictPartial]
    rw [hfilter, List.map_append]
    congr 1
    · -- the semantic part: only the entry of r₀ changes
      rw [List.map_map]
      refine List.map_congr_left ?_
      intro x hx
      simp only [Function.comp_apply]
      by_cases hxe : (x.id == r.id) = true
      · have hxid : x.id = r.id := eq_of_beq hxe
        have hxr₀ : x = r₀ := hinj hx hr₀mem (by rw [hxid, hr₀id])
        subst hxr₀
        rw [if_pos hxe]
        have hfind : (P ++ [r]).find? (fun kr => kr.id == x.id) = some r := by
          rw [List.find?_append, find?_id_eq_none
            (fun p hp hcc => hrP p hp (by rwa [hxid] at hcc))]
          rw [Option.none_or]
          exact List.find?_cons_of_pos _ (by simpa using hxid.symm)
        rw [hfind, hxid]
      · rw [if_neg hxe]
        have hfind : (P ++ [r]).find? (fun kr => kr.id == x.id) =
            P.find? (fun kr => kr.id == x.id) := by
          rw [List.find?_append, List.find?_cons_of_neg _
            (by rw [beq_comm_false hxe]; exact Bool.false_ne_true)]
          cases hp : P.find? (fun kr => kr.id == x.id) <;> rfl
        rw [hfind]
    · -- the keyword-only part is untouched
      rw [List.map_map]
      refine (List.map_congr_left ?_).symm
      intro kr hkr
      have hkrP : kr ∈ P := (List.mem_filter.mp hkr).1
      simp only [Function.comp_apply]
      rw [if_neg]
      intro hke
      exact hrP kr hkrP hke
  · -- the keyword result appends a new keyword-only entry
    push_neg at hc
    have hAllNe : ∀ x ∈ semR, ¬ (x.id == r.id) := by
      intro x hx hke
      exact hc x hx (eq_of_beq hke)
    have hlookA : (semR.map (fun x => (x.id, semEntry w x
        (P.find? (fun kr => kr.id == x.id))))).lookup r.id = none :=
      lookup_map_pair_eq_none _ _ _ hAllNe
    have hlookB : (((P.filter (fun kr => semR.all
        (fun x => !(x.id == kr.id)))).map
          (fun kr => (kr.id, kwOnlyEntry w kr))).lookup r.id) = none :=
      lookup_map_pair_eq_none _ _ _
        (fun kr hkr => hrP kr (List.mem_filter.mp hkr).1)
    have hlook : (mergedDictPartial semR P w).lookup r.id = none := by
      rw [mergedDictPartial, lookup_append_or, hlookA, hlookB]
      rfl
    rw [hlook]
    show dictSet (mergedDictPartial semR P w) r.id (kwOnlyEntry w r) =
      mergedDictPartial semR (P ++ [r]) w
    have hfresh : ∀ kv ∈ mergedDictPartial semR P w, ¬ (kv.1 == r.id) := by
      intro kv hkv
      rw [mergedDictPartial] at hkv
      rcases List.mem_append.mp hkv with hA | hB
      · obtain ⟨x, hx, rfl⟩ := List.mem_map.mp hA
        exact hAllNe x hx
      · obtain ⟨kr, hkr, rfl⟩ := List.mem_map.mp hB
        exact hrP kr (List.mem_filter.mp hkr).1
    rw [dictSet_fresh _ _ _ hfresh]
    conv_lhs => rw [mergedDictPartial]
    conv_rhs => rw [mergedDictPartial]
    have hsame : semR.map (fun x => (x.id, semEntry w x
        ((P ++ [r]).find? (fun kr => kr.id == x.id)))) =
        semR.map (fun x => (x.id, semEntry w x
          (P.find? (fun kr => kr.id == x.id)))) := by
      refine List.map_congr_left ?_
      intro x hx
      have hfind : (P ++ [r]).find? (fun kr => kr.id == x.id) =
          P.find? (fun kr => kr.id == x.id) := by
        rw [List.find?_append, List.find?_cons_of_neg _
          (by rw [beq_comm_false (hAllNe x hx)]; exact Bool.false_ne_true)]
        cases hp : P.find? (fun kr => kr.id == x.id) <;> rfl
      rw [hfind]
    have hfilter : (P ++ [r]).filter (fun kr => semR.all
        (fun x => !(x.id == kr.id))) =
        P.filter (fun kr => semR.all (fun x => !(x.id == kr.id))) ++ [r] := by
      rw [List.filter_append]
      have hall : (semR.all (fun x => !(x.id == r.id))) = true := by
        rw [List.all_eq_true]
        intro x hx
        simpa using hAllNe x hx
      simp [hall]
    rw [hsame, hfilter, List.map_append, List.append_assoc]
    rfl

theorem mergePhase2_fold (semR : List SearchResult) (w : ℚ)
    (hndS : (semR.map (fun x => x.id)).Nodup) :
    ∀ (rest P : List SearchResult),
      (∀ p ∈ P, ∀ x ∈ rest, ¬ (p.id == x.id)) →
      ((rest.map (fun x => x.id)).Nodup) →
      rest.foldl (fun d r =>
        match d.lookup r.id with
        | some entry => dictSet d r.id ⟨entry.document, entry.metadata,
            entry.semanticScore, r.score,
            entry.semanticScore * w + r.score * (1 - w)⟩
        | none => dictSet d r.id
            ⟨r.document, r.metadata, 0, r.score, r.score * (1 - w)⟩)
        (mergedDictPartial semR P w)
      = mergedDictPartial semR (P ++ rest) w := by
  intro rest
  induction rest with
  | nil =>
    intro P _ _
    rw [List.foldl_nil, List.append_nil]
  | cons r rs ih =>
    intro P hP hnd
    obtain ⟨hr1, hr2⟩ : r.id ∉ List.map (fun x => x.id) rs ∧
        (List.map (fun x => x.id) rs).Nodup := by
      rw [List.map_cons, List.nodup_cons] at hnd
      exact hnd
    rw [List.foldl_cons,
      mergePhase2_step semR P r w hndS (fun p hp => hP p hp r (by simp)),
      ih (P ++ [r]) ?_ hr2, List.append_assoc]
    · rfl
    · intro p hp x hx
      rcases List.mem_append.mp hp with h1 | h2
      · exact hP p h1 x (List.mem_cons_of_mem r hx)
      · have hpr : p = r := by simpa using h2
        subst hpr
        intro hke
        have : p.id ∈ List.map (fun y => y.id) rs := by
          rw [eq_of_beq hke]
          exact List.mem_map_of_mem _ hx
        exact hr1 this

/-- The `doc_scores` dict built by `_merge_results`, characterised: one
entry per semantic result (carrying its keyword score when the id also
appears in the keyword ranking), then one entry per keyword-only result. -/
theorem mergeDict_eq (semR kwR : List SearchResult) (w : ℚ)
    (hndS : (semR.map (fun x => x.id)).Nodup)
    (hndK : (kwR.map (fun x => x.id)).Nodup) :
    mergePhase2 (mergePhase1 semR w) kwR w = mergedDictPartial semR kwR w := by
  rw [mergePhase1_eq semR w hndS]
  exact mergePhase2_fold semR w hndS kwR [] (by simp) hndK

/-- `_merge_results`, characterised: flatten the characterised dict and
sort it descending by fused score. -/
theorem mergeResults_eq (semR kwR : List SearchResult) (w : ℚ)
    (hndS : (semR.map (fun x => x.id)).Nodup)
    (hndK : (kwR.map (fun x => x.id)).Nodup) :
    mergeResults semR kwR w = ((mergedDictPartial semR kwR w).map (fun kv =>
      ({ id := kv.1, document := kv.2.document, metadata := kv.2.metadata,
         score := kv.2.finalScore, semanticScore := kv.2.semanticScore,
         keywordScore := kv.2.keywordScore } : MergedResult))).insertionSort
      (fun a b => b.score ≤ a.score) := by
  have h := mergeDict_eq semR kwR w hndS hndK
  show ((mergePhase2 (mergePhase1 semR w) kwR w).map (fun kv =>
      ({ id := kv.1, document := kv.2.document, metadata := kv.2.metadata,
         score := kv.2.finalScore, semanticScore := kv.2.semanticScore,
         keywordScore := kv.2.keywordScore } : MergedResult))).insertionSort
      (fun a b => b.score ≤ a.score) = _
  rw [h]

/-- The fused score recorded in the characterised dict is exactly
`w * semantic + (1 - w) * keyword` with a missing side scoring 0. -/
theorem mem_mergedDictPartial_final {semR kwR : List SearchResult} {w : ℚ}
    {kv : String × ScoreData}
    (hndS : (semR.map (fun x => x.id)).Nodup)
    (hndK : (kwR.map (fun x => x.id)).Nodup)
    (hkv : kv ∈ mergedDictPartial semR kwR w) :
    kv.2.finalScore = w * scoreOf semR kv.1 + (1 - w) * scoreOf kwR kv.1 := by
  rw [mergedDictPartial] at hkv
  rcases List.mem_append.mp hkv with hA | hB
  · obtain ⟨x, hx, rfl⟩ := List.mem_map.mp hA
    have hsem : scoreOf semR x.id = x.score := by
      rw [scoreOf, find?_id_eq_some_of_nodup hndS hx]
      rfl
    cases hf : kwR.find? (fun kr => kr.id == x.id) with
    | some kr =>
      have hkw : scoreOf kwR x.id = kr.score := by
        rw [scoreOf, hf]
        rfl
      show x.score * w + kr.score * (1 - w) =
        w * scoreOf semR x.id + (1 - w) * scoreOf kwR x.id
      rw [hsem, hkw]
      ring
    | none =>
      have hkw : scoreOf kwR x.id = 0 := by
        rw [scoreOf, hf]
        rfl
      show x.score * w =
        w * scoreOf semR x.id + (1 - w) * scoreOf kwR x.id
      rw [hsem, hkw]
      ring
  · obtain ⟨kr, hkr, rfl⟩ := List.mem_map.mp hB
    have hkrK : kr ∈ kwR := (List.mem_filter.mp hkr).1
    have hall := (List.mem_filter.mp hkr).2
    have hsem : scoreOf semR kr.id = 0 := by
      rw [scoreOf, find?_id_eq_none ?_]
      · rfl
      · intro x hx
        have := (List.all_eq_true.mp hall) x hx
        simpa using this
    have hkw : scoreOf kwR kr.id = kr.score := by
      rw [scoreOf, find?_id_eq_some_of_nodup hndK hkrK]
      rfl
    show kr.score * (1 - w) =
      w * scoreOf semR kr.id + (1 - w) * scoreOf kwR kr.id
    rw [hsem, hkw]
    ring

/-- The output of `_merge_results` is sorted descending by fused score. -/
theorem mergeResults_sorted (semR kwR : List SearchResult) (w : ℚ) :
    List.Sorted (fun a b : MergedResult => b.score ≤ a.score)
      (mergeResults semR kwR w) := by
  haveI : IsTotal MergedResult (fun a b => b.score ≤ a.score) :=
    ⟨fun a b => le_total b.score a.score⟩
  haveI : IsTrans MergedResult (fun a b => b.score ≤ a.score) :=
    ⟨fun a b c h1 h2 => le_trans h2 h1⟩
  exact List.sorted_insertionSort _ _

/-- C2: for `k ≥ 1` and `w ∈ [0, 1]`, every document returned by
`HybridRetriever.retrieve` carries the fused score
`w * semantic + (1 - w) * lexical`, where the semantic score comes from
the `2k`-candidate semantic search (0 when absent), the lexical score of
every keyword-ranked document is its distinct-term overlap divided by the
number of distinct query terms (0 when absent from the keyword ranking),
and the output is sorted descending by fused score and truncated to at
most `k` entries. -/
theorem c2_hybrid_retrieve_fusion (sim : List ℚ → List ℚ → ℚ)
    (store : MemoryStore) (q : String) (k : Nat) (w : ℚ)
    (_hk : 1 ≤ k) (_hw0 : 0 ≤ w) (_hw1 : w ≤ 1)
    (hndS : ((search sim store q (k * 2) none).map (fun r => r.id)).Nodup)
    (hndK : ((keywordSearch store q (k * 2) none).map
      (fun r => r.id)).Nodup) :
    (∀ r ∈ retrieve sim store q k w none,
      r.score = w * scoreOf (search sim store q (k * 2) none) r.id +
        (1 - w) * scoreOf (keywordSearch store q (k * 2) none) r.id) ∧
    (∀ e ∈ keywordSearch store q (k * 2) none,
      e.score = overlapScore q e.document) ∧
    List.Sorted (fun a b : MergedResult => b.score ≤ a.score)
      (retrieve sim store q k w none) ∧
    (retrieve sim store q k w none).length ≤ k := by
  refine ⟨?_, ?_, ?_, ?_⟩
  · intro r hr
    have hr2 : r ∈ mergeResults (search sim store q (k * 2) none)
        (keywordSearch store q (k * 2) none) w := List.mem_of_mem_take hr
    rw [mergeResults_eq _ _ _ hndS hndK, List.mem_insertionSort] at hr2
    obtain ⟨kv, hkv, rfl⟩ := List.mem_map.mp hr2
    exact mem_mergedDictPartial_final hndS hndK hkv
  · intro e he
    have he2 : e ∈ ((List.range store.documents.length).filterMap (fun i =>
        let md := store.metadatas.getD i []
        if !(((none : Option Metadata)).getD []).isEmpty &&
            !(metaMatches (((none : Option Metadata)).getD []) md) then none
        else
          let doc := store.documents.getD i ""
          let score := overlapScore q doc
          if 0 < score then
            some { id := store.ids.getD i "", document := doc, metadata := md,
                   score := score }
          else none)).insertionSort (fun a b => b.score ≤ a.score) :=
      List.mem_of_mem_take he
    rw [List.mem_insertionSort] at he2
    obtain ⟨i, hi, hfi⟩ := List.mem_filterMap.mp he2
    dsimp only at hfi
    split at hfi
    · simp at hfi
    · split at hfi
      · cases hfi
        rfl
      · simp at hfi
  · exact List.Pairwise.sublist (List.take_sublist _ _)
      (mergeResults_sorted _ _ _)
  · exact List.length_take_le _ _

/-- Witness for C2 at a concrete input: a two-document store queried for
one verbatim term, `k = 1`, `w = 7/10`. -/
theorem c2_witness :
    (∀ r ∈ retrieve (fun _ _ => 1) ⟨["a", "b"], [[1], [1]],
        ["apple pie", "banana split"], [[], []]⟩ "apple" 1 ((7 : ℚ)/10) none,
      r.score = ((7 : ℚ)/10) * scoreOf (search (fun _ _ => 1)
          ⟨["a", "b"], [[1], [1]], ["apple pie", "banana split"], [[], []]⟩
          "apple" (1 * 2) none) r.id +
        (1 - (7 : ℚ)/10) * scoreOf (keywordSearch
          ⟨["a", "b"], [[1], [1]], ["apple pie", "banana split"], [[], []]⟩
          "apple" (1 * 2) none) r.id) ∧
    (∀ e ∈ keywordSearch ⟨["a", "b"], [[1], [1]],
        ["apple pie", "banana split"], [[], []]⟩ "apple" (1 * 2) none,
      e.score = overlapScore "apple" e.document) ∧
    List.Sorted (fun a b : MergedResult => b.score ≤ a.score)
      (retrieve (fun _ _ => 1) ⟨["a", "b"], [[1], [1]],
        ["apple pie", "banana split"], [[], []]⟩ "apple" 1 ((7 : ℚ)/10) none) ∧
    (retrieve (fun _ _ => 1) ⟨["a", "b"], [[1], [1]],
        ["apple pie", "banana split"], [[], []]⟩ "apple" 1
        ((7 : ℚ)/10) none).length ≤ 1 :=
  c2_hybrid_retrieve_fusion (fun _ _ => 1)
    ⟨["a", "b"], [[1], [1]], ["apple pie", "banana split"], [[], []]⟩
    "apple" 1 ((7 : ℚ)/10) (by decide) (by norm_num) (by norm_num)
    (by decide) (by decide)

theorem filterMap_range_eq_singleton {β} {f : Nat → Option β} {n t : Nat}
    {b : β} (ht : t < n) (hft : f t = some b)
    (hothers : ∀ i, i < n → i ≠ t → f i = none) :
    (List.range n).filterMap f = [b] := by
  induction n with
  | zero => omega
  | succ m ih =>
    rw [List.range_succ, List.filterMap_append]
    by_cases hmt : m = t
    · subst hmt
      have h0 : (List.range m).filterMap f = [] := by
        rw [List.filterMap_eq_nil_iff]
        intro a ha
        have ham := List.mem_range.mp ha
        exact hothers a (by omega) (by omega)
      rw [h0, List.nil_append, List.filterMap_cons, hft]
      rfl
    · have ht2 : t < m := by omega
      rw [ih ht2 (fun i hi hit => hothers i (by omega) hit),
        List.filterMap_cons, hothers m (by omega) hmt]
      rfl

/-- `_keyword_search` with no filter, when the query terms occur in the
document at index `t` and in no other document: the ranking is exactly
that one document with score 1. -/
theorem keywordSearch_singleton (store : MemoryStore) (q : String)
    (k t : Nat) (ht : t < store.documents.length)
    (hsc : overlapScore q (store.documents.getD t "") = 1)
    (hothers : ∀ i, i < store.documents.length → i ≠ t →
      overlapScore q (store.documents.getD i "") = 0)
    (hk : 1 ≤ k) :
    keywordSearch store q k none =
      [⟨store.ids.getD t "", store.documents.getD t "",
        store.metadatas.getD t [], 1⟩] := by
  rw [keywordSearch,
    filterMap_range_eq_singleton ht ?_
      (fun i hi hit => ?_)]
  · show (([(⟨store.ids.getD t "", store.documents.getD t "",
        store.metadatas.getD t [], 1⟩ : SearchResult)]).insertionSort
        (fun a b => b.score ≤ a.score)).take k = _
    rw [List.take_of_length_le (by simpa using hk)]
    rfl
  · show (if 0 < overlapScore q (store.documents.getD t "") then
        some (⟨store.ids.getD t "", store.documents.getD t "",
          store.metadatas.getD t [],
          overlapScore q (store.documents.getD t "")⟩ : SearchResult)
      else none) = some ⟨store.ids.getD t "", store.documents.getD t "",
        store.metadatas.getD t [], 1⟩
    rw [hsc, if_pos (by norm_num)]
  · show (if 0 < overlapScore q (store.documents.getD i "") then
        some (⟨store.ids.getD i "", store.documents.getD i "",
          store.metadatas.getD i [],
          overlapScore q (store.documents.getD i "")⟩ : SearchResult)
      else none) = none
    rw [hothers i hi hit, if_neg (by norm_num)]

/-- C4: for a query all of whose distinct terms occur verbatim in the
document at index `t` and in no other stored document, the fused score
`_merge_results` assigns inside `HybridRetriever.retrieve` to that
document is at least its semantic-only score `s` from the underlying
vector-store search (for any `w ∈ [0, 1]`, given `s ≤ 1` as cosine
similarity guarantees). -/
theorem c4_fusion_monotonicity (sim : List ℚ → List ℚ → ℚ)
    (store : MemoryStore) (q : String) (k t : Nat) (w s : ℚ)
    (hk : 1 ≤ k) (_hw0 : 0 ≤ w) (hw1 : w ≤ 1)
    (ht : t < store.documents.length)
    (hsc : overlapScore q (store.documents.getD t "") = 1)
    (hothers : ∀ i, i < store.documents.length → i ≠ t →
      overlapScore q (store.documents.getD i "") = 0)
    (hndS : ((search sim store q (k * 2) none).map (fun r => r.id)).Nodup)
    (hmem : ∃ r₀ ∈ search sim store q (k * 2) none,
      r₀.id = store.ids.getD t "" ∧ r₀.score = s)
    (hs1 : s ≤ 1) :
    ∃ r ∈ mergeResults (search sim store q (k * 2) none)
        (keywordSearch store q (k * 2) none) w,
      r.id = store.ids.getD t "" ∧ r.score = s * w + (1 - w) ∧
      s ≤ r.score := by
  obtain ⟨r₀, hr₀mem, hr₀id, hr₀score⟩ := hmem
  have hkw : keywordSearch store q (k * 2) none =
      [⟨store.ids.getD t "", store.documents.getD t "",
        store.metadatas.getD t [], 1⟩] :=
    keywordSearch_singleton store q (k * 2) t ht hsc hothers (by omega)
  have hndK : ((keywordSearch store q (k * 2) none).map
      (fun r => r.id)).Nodup := by
    rw [hkw]
    simp
  have hfind : (keywordSearch store q (k * 2) none).find?
      (fun kr => kr.id == r₀.id) =
      some ⟨store.ids.getD t "", store.documents.getD t "",
        store.metadatas.getD t [], 1⟩ := by
    rw [hkw]
    exact List.find?_cons_of_pos _ (by simp [hr₀id])
  have hkv : (r₀.id, semEntry w r₀
      (some (⟨store.ids.getD t "", store.documents.getD t "",
        store.metadatas.getD t [], 1⟩ : SearchResult))) ∈
      mergedDictPartial (search sim store q (k * 2) none)
        (keywordSearch store q (k * 2) none) w := by
    rw [mergedDictPartial]
    refine List.mem_append_left _ ?_
    have hm : (r₀.id, semEntry w r₀
        ((keywordSearch store q (k * 2) none).find?
          (fun kr => kr.id == r₀.id))) ∈
        (search sim store q (k * 2) none).map (fun x => (x.id, semEntry w x
          ((keywordSearch store q (k * 2) none).find?
            (fun kr => kr.id == x.id)))) :=
      List.mem_map_of_mem _ hr₀mem
    rw [hfind] at hm
    exact hm
  refine ⟨⟨r₀.id, r₀.document, r₀.metadata, r₀.score * w + 1 * (1 - w),
    r₀.score, 1⟩, ?_, hr₀id, ?_, ?_⟩
  · rw [mergeResults_eq _ _ _ hndS hndK, List.mem_insertionSort]
    exact List.mem_map_of_mem (fun kv =>
      ({ id := kv.1, document := kv.2.document, metadata := kv.2.metadata,
         score := kv.2.finalScore, semanticScore := kv.2.semanticScore,
         keywordScore := kv.2.keywordScore } : MergedResult)) hkv
  · show r₀.score * w + 1 * (1 - w) = s * w + (1 - w)
    rw [hr₀score]
    ring
  · show s ≤ r₀.score * w + 1 * (1 - w)
    rw [hr₀score]
    nlinarith [mul_nonneg (sub_nonneg.mpr hw1) (sub_nonneg.mpr hs1)]

/-- Witness for C4 at a concrete input: the query term occurs verbatim in
exactly the first of two stored documents. -/
theorem c4_witness :
    ∃ r ∈ mergeResults (search (fun _ _ => 1) ⟨["a", "b"], [[1], [1]],
        ["apple pie", "banana split"], [[], []]⟩ "apple" (1 * 2) none)
      (keywordSearch ⟨["a", "b"], [[1], [1]],
        ["apple pie", "banana split"], [[], []]⟩ "apple" (1 * 2) none)
      ((7 : ℚ)/10),
      r.id = (⟨["a", "b"], [[1], [1]], ["apple pie", "banana split"],
        [[], []]⟩ : MemoryStore).ids.getD 0 "" ∧
      r.score = 1 * ((7 : ℚ)/10) + (1 - (7 : ℚ)/10) ∧ (1 : ℚ) ≤ r.score :=
  c4_fusion_monotonicity (fun _ _ => 1)
    ⟨["a", "b"], [[1], [1]], ["apple pie", "banana split"], [[], []]⟩
    "apple" 1 0 ((7 : ℚ)/10) 1 (by decide) (by norm_num) (by norm_num)
    (by decide) (by decide)
    (by
      intro i hi hit
      have h2 : i < 2 := hi
      rcases (by omega : i = 0 ∨ i = 1) with rfl | rfl
      · exact absurd rfl hit
      · decide)
    (by decide)
    ⟨⟨"a", "apple pie", [], 1⟩, by decide, by decide, by decide⟩
    (by norm_num)

end Christ
